import Mathlib

/-!
Verification of the DIET classifier training head: a shallow embedding of
`src/layers/loss.py` and `src/models/classifier.py`.

Tensors are modelled as (nested) lists.  Float arithmetic is modelled exactly:
over an arbitrary linear ordered field where the source only adds, compares and
averages (the margin loss), and over `ℝ` where the source takes square roots,
exponentials and logarithms (cosine similarity, cross-entropy loss).

The pretrained transformer encoder and the conditional-random-field scorer are
external collaborators (their code is not part of the verified core); they are
modelled as opaque function parameters of the classifier, exactly as the head
consumes them.
-/

namespace DIET

/-- Arithmetic mean of a list (`torch.mean`).  For the empty list this is
`0 / 0 = 0`, a modelling default that no claim exercises. -/
def listMean {α : Type} [DivisionRing α] (l : List α) : α :=
  l.sum / (l.length : α)

/-- Maximum of a list (`torch.max`).  `torch.max` raises on an empty tensor;
the `[]` case below is a modelling default that no claim exercises. -/
def listMax {α : Type} [Zero α] [Max α] : List α → α
  | [] => 0
  | x :: xs => xs.foldl max x

/-- `SingleLabelDotProductLoss._loss_margin` (loss.py lines 81-97):
an elementwise hinge `max(0, mu_pos - sim_pos)` on the positive similarities,
plus a single scalar negative term broadcast to every example
(in max-sim-neg mode `max(0, mu_neg + max sim_neg)` over the whole batch,
otherwise the maximum of the elementwise hinges `max(0, mu_neg + sim_neg)`),
then the batch mean. -/
def marginLoss {α : Type} [LinearOrderedField α]
    (muPos muNeg : α) (useMaxSimNeg : Bool) (simPos simNeg : List α) : α :=
  let pos := simPos.map (fun s => max 0 (muPos - s))
  let negTerm :=
    if useMaxSimNeg then max 0 (muNeg + listMax simNeg)
    else listMax (simNeg.map (fun s => max 0 (muNeg + s)))
  listMean (pos.map (fun t => t + negTerm))

/- ### Helper lemmas about list sums and means -/

theorem listSum_nonneg {α : Type} [LinearOrderedField α] {l : List α}
    (h : ∀ x ∈ l, 0 ≤ x) : 0 ≤ l.sum := by
  induction l with
  | nil => simp
  | cons a t ih =>
      simp only [List.sum_cons]
      have ha := h a (List.mem_cons_self a t)
      have ht := ih (fun x hx => h x (List.mem_cons_of_mem a hx))
      linarith

theorem listSum_pos_of_mem {α : Type} [LinearOrderedField α] {l : List α} {x : α}
    (hx : x ∈ l) (hpos : 0 < x) (hnn : ∀ y ∈ l, 0 ≤ y) : 0 < l.sum := by
  induction l with
  | nil => cases hx
  | cons a t ih =>
      simp only [List.sum_cons]
      rcases List.mem_cons.mp hx with h | h
      · have ht := listSum_nonneg (fun y hy => hnn y (List.mem_cons_of_mem a hy))
        subst h; linarith
      · have ha := hnn a (List.mem_cons_self a t)
        have := ih h (fun y hy => hnn y (List.mem_cons_of_mem a hy))
        linarith

theorem listMean_nonneg {α : Type} [LinearOrderedField α] {l : List α}
    (h : ∀ x ∈ l, 0 ≤ x) : 0 ≤ listMean l := by
  unfold listMean
  have hlen : (0:α) ≤ (l.length : α) := by positivity
  exact div_nonneg (listSum_nonneg h) hlen

theorem listMean_pos {α : Type} [LinearOrderedField α] {l : List α} {x : α}
    (hx : x ∈ l) (hpos : 0 < x) (hnn : ∀ y ∈ l, 0 ≤ y) : 0 < listMean l := by
  unfold listMean
  have hlen : (0:α) < (l.length : α) := by
    have : l ≠ [] := by intro h; subst h; cases hx
    have : 0 < l.length := List.length_pos.mpr this
    exact_mod_cast this
  exact div_pos (listSum_pos_of_mem hx hpos hnn) hlen

theorem listMean_eq_zero {α : Type} [LinearOrderedField α] {l : List α}
    (h : ∀ x ∈ l, x = 0) : listMean l = 0 := by
  unfold listMean
  rw [List.sum_eq_zero h, zero_div]

theorem le_listMax_head {α : Type} [LinearOrderedField α] (b : α) (l : List α) :
    b ≤ l.foldl max b := by
  induction l generalizing b with
  | nil => simp
  | cons a t ih => exact le_trans (le_max_left b a) (ih (max b a))

/-- The global negative term of the margin loss is non-negative in both modes
(when the negative batch is nonempty). -/
theorem marginNegTerm_nonneg {α : Type} [LinearOrderedField α]
    (muNeg : α) (useMaxSimNeg : Bool) (simNeg : List α) (hsn : simNeg ≠ []) :
    0 ≤ (if useMaxSimNeg then max 0 (muNeg + listMax simNeg)
         else listMax (simNeg.map (fun s => max 0 (muNeg + s)))) := by
  cases useMaxSimNeg with
  | true => simp
  | false =>
      simp only [if_neg (by simp : ¬False), Bool.false_eq_true, if_false]
      cases simNeg with
      | nil => exact absurd rfl hsn
      | cons a t =>
          simp only [List.map_cons, listMax]
          exact le_trans (le_max_left 0 (muNeg + a)) (le_listMax_head _ _)

/-- C1: margin loss with `mu_pos = 0.8`, `mu_neg = -0.2` in max-sim-neg mode on
positive similarities `[0.9, 0.3]` and one negative similarity per example
`[-0.5, 0.1]`: the per-example positive terms are `[0, 0.5]`, the single
global negative term is `max(0, -0.2 + 0.1) = 0`, and the returned loss is the
batch mean `0.25`. -/
theorem c1_margin_scenario :
    List.map (fun s => max 0 ((4:ℚ)/5 - s)) [9/10, 3/10] = [0, 1/2]
    ∧ max (0:ℚ) (-1/5 + listMax [-1/2, 1/10]) = 0
    ∧ marginLoss ((4:ℚ)/5) (-1/5) true [9/10, 3/10] [-1/2, 1/10] = 1/4 := by
  refine ⟨?_, ?_, ?_⟩ <;>
    norm_num [marginLoss, listMean, listMax, max_def]

/-- C6: the margin loss is non-negative for all (nonempty) inputs; it is `0`
when every positive similarity equals `mu_pos` and, in max-sim-neg mode, the
maximum negative similarity equals `-mu_neg`; and it is strictly positive as
soon as some positive similarity is below `mu_pos`. -/
theorem c6_margin_properties {muPos muNeg : ℚ} (b : Bool) (simPos simNeg : List ℚ)
    (i : ℕ) (hsp : simPos ≠ []) (hsn : simNeg ≠ []) (hi : i < simPos.length) :
    0 ≤ marginLoss muPos muNeg b simPos simNeg
    ∧ ((∀ s ∈ simPos, s = muPos) → listMax simNeg = -muNeg →
        marginLoss muPos muNeg true simPos simNeg = 0)
    ∧ (simPos.getD i 0 < muPos → 0 < marginLoss muPos muNeg b simPos simNeg) := by
  have hneg := marginNegTerm_nonneg muNeg b simNeg hsn
  refine ⟨?_, ?_, ?_⟩
  · unfold marginLoss
    refine listMean_nonneg ?_
    intro x hx
    simp only [List.map_map, List.mem_map] at hx
    obtain ⟨s, _, rfl⟩ := hx
    have : (0:ℚ) ≤ max 0 (muPos - s) := le_max_left _ _
    simp only [Function.comp]
    linarith
  · intro hall hmax
    unfold marginLoss
    refine listMean_eq_zero ?_
    intro x hx
    simp only [List.map_map, List.mem_map] at hx
    obtain ⟨s, hs, rfl⟩ := hx
    have h1 : muPos - s = 0 := by rw [hall s hs]; ring
    simp only [Function.comp, if_pos trivial, h1, hmax, max_self, if_true]
    simp
  · intro hlt
    unfold marginLoss
    have hx : simPos.getD i 0 ∈ simPos := by
      rw [List.getD_eq_getElem simPos 0 hi]
      exact List.getElem_mem hi
    have hmem : max 0 (muPos - simPos.getD i 0)
        + (if b then max 0 (muNeg + listMax simNeg)
           else listMax (simNeg.map (fun s => max 0 (muNeg + s))))
        ∈ ((simPos.map (fun s => max 0 (muPos - s))).map
            (fun t => t + (if b then max 0 (muNeg + listMax simNeg)
              else listMax (simNeg.map (fun s => max 0 (muNeg + s)))))) := by
      simp only [List.map_map, List.mem_map]
      exact ⟨simPos.getD i 0, hx, rfl⟩
    refine listMean_pos hmem ?_ ?_
    · have h2 : 0 < max 0 (muPos - simPos.getD i 0) :=
        lt_max_of_lt_right (by linarith)
      linarith
    · intro y hy
      simp only [List.map_map, List.mem_map] at hy
      obtain ⟨s, _, rfl⟩ := hy
      have : (0:ℚ) ≤ max 0 (muPos - s) := le_max_left _ _
      simp only [Function.comp]
      linarith

/-- C6 witness: concrete instance with `mu_pos = 4/5`, `mu_neg = -1/5`,
positive similarities `[4/5, 1/2]`, negative similarities `[1/5]`. -/
theorem c6_margin_properties_witness :
    0 ≤ marginLoss ((4:ℚ)/5) (-1/5) true [4/5, 1/2] [1/5]
    ∧ ((∀ s ∈ [(4:ℚ)/5, 1/2], s = 4/5) → listMax [(1:ℚ)/5] = -(-1/5) →
        marginLoss ((4:ℚ)/5) (-1/5) true [4/5, 1/2] [1/5] = 0)
    ∧ ([(4:ℚ)/5, 1/2].getD 1 0 < 4/5 →
        0 < marginLoss ((4:ℚ)/5) (-1/5) true [4/5, 1/2] [1/5]) :=
  c6_margin_properties true [4/5, 1/2] [1/5] 1
    (by decide) (by decide) (by decide)

/- ### Similarity module (`SingleLabelDotProductLoss.sim`, loss.py lines 58-80)

`torch.nn.functional.normalize(v, p=2, dim=-1)` divides each row by
`max(‖v‖₂, eps)` with `eps = 1e-12`; `sim` then multiplies the two normalized
rows elementwise and sums over the last axis. -/

/-- The safe-division floor of `torch.nn.functional.normalize` (`eps = 1e-12`). -/
noncomputable def tEps : ℝ := 1 / 10 ^ 12

/-- Euclidean norm of a row. -/
noncomputable def l2norm (v : List ℝ) : ℝ :=
  Real.sqrt (v.map (fun x => x ^ 2)).sum

/-- `normalize(v, p=2, dim=-1)`: divide every entry by `max(‖v‖₂, eps)`. -/
noncomputable def l2normalize (v : List ℝ) : List ℝ :=
  v.map (fun x => x / max (l2norm v) tEps)

/-- `SingleLabelDotProductLoss.sim` on a single pair of rows: cosine of the
angle between `a` and `b`, with the zero-norm rows silently floored. -/
noncomputable def simV (a b : List ℝ) : ℝ :=
  (List.zipWith (· * ·) (l2normalize a) (l2normalize b)).sum

theorem tEps_pos : 0 < tEps := by unfold tEps; norm_num

theorem sumSq_nonneg (v : List ℝ) : 0 ≤ (v.map (fun x => x ^ 2)).sum := by
  refine listSum_nonneg ?_
  intro x hx
  simp only [List.mem_map] at hx
  obtain ⟨y, _, rfl⟩ := hx
  positivity

theorem l2norm_nonneg (v : List ℝ) : 0 ≤ l2norm v := Real.sqrt_nonneg _

theorem l2norm_sq (v : List ℝ) : l2norm v ^ 2 = (v.map (fun x => x ^ 2)).sum := by
  unfold l2norm
  exact Real.sq_sqrt (sumSq_nonneg v)

theorem zipWith_div_scale (v w : List ℝ) (m n : ℝ) :
    (List.zipWith (· * ·) (v.map (fun x => x / m)) (w.map (fun x => x / n))).sum
      = (List.zipWith (· * ·) v w).sum / (m * n) := by
  induction v generalizing w with
  | nil => simp
  | cons a t ih =>
      cases w with
      | nil => simp
      | cons b u =>
          simp only [List.map_cons, List.zipWith_cons_cons, List.sum_cons, ih u]
          rw [add_div, div_mul_div_comm]

/-- `sim` as a quotient of the raw dot product by the floored norms. -/
theorem simV_div (a b : List ℝ) :
    simV a b = (List.zipWith (· * ·) a b).sum
      / (max (l2norm a) tEps * max (l2norm b) tEps) := by
  unfold simV l2normalize
  exact zipWith_div_scale a b _ _

theorem zipWith_self_sq (a : List ℝ) :
    (List.zipWith (· * ·) a a).sum = (a.map (fun x => x ^ 2)).sum := by
  induction a with
  | nil => simp
  | cons x t ih => simp [List.zipWith_cons_cons, ih, sq]

theorem zipWith_neg_self (a : List ℝ) :
    (List.zipWith (· * ·) a (a.map (fun x => -x))).sum
      = -(a.map (fun x => x ^ 2)).sum := by
  induction a with
  | nil => simp
  | cons x t ih => simp [List.zipWith_cons_cons, ih, sq]; ring

theorem l2norm_map_neg (a : List ℝ) : l2norm (a.map (fun x => -x)) = l2norm a := by
  simp [l2norm, List.map_map, Function.comp_def, neg_sq]

theorem simV_self (a : List ℝ) (ha : tEps ≤ l2norm a) : simV a a = 1 := by
  have hpos : 0 < l2norm a := lt_of_lt_of_le tEps_pos ha
  rw [simV_div, max_eq_left ha, zipWith_self_sq, ← l2norm_sq]
  field_simp
  ring

theorem simV_orth (a b : List ℝ) (h : (List.zipWith (· * ·) a b).sum = 0) :
    simV a b = 0 := by
  rw [simV_div, h, zero_div]

theorem simV_neg_self (a : List ℝ) (ha : tEps ≤ l2norm a) :
    simV a (a.map (fun x => -x)) = -1 := by
  have hpos : 0 < l2norm a := lt_of_lt_of_le tEps_pos ha
  rw [simV_div, max_eq_left ha, l2norm_map_neg, max_eq_left ha,
    zipWith_neg_self, ← l2norm_sq]
  field_simp
  ring

/-- C7 counterexample: on the zero vector the similarity module returns `0`,
not `1`, even though the two arguments are equal vectors — the universally
quantified claim "for all pairs of equal vectors a = b the module returns 1.0"
is false at `a = b = [0, 0]`. -/
theorem c7_zero_vector_counter : simV [(0:ℝ), 0] [(0:ℝ), 0] ≠ 1 := by
  have h : simV [(0:ℝ), 0] [(0:ℝ), 0] = 0 := by
    refine simV_orth _ _ ?_
    simp
  rw [h]
  norm_num

/-- C7 (amended): for every vector whose Euclidean norm is at least the
safe-division floor `eps`, `sim` of the vector with itself is exactly `1` and
with its exact opposite exactly `-1`; for any pair with zero dot product `sim`
is exactly `0` (zero vectors fall in this case, yielding `0` rather than `1`). -/
theorem c7_sim_values (a b : List ℝ) (ha : tEps ≤ l2norm a) :
    simV a a = 1
    ∧ ((List.zipWith (· * ·) a b).sum = 0 → simV a b = 0)
    ∧ simV a (a.map (fun x => -x)) = -1 :=
  ⟨simV_self a ha, simV_orth a b, simV_neg_self a ha⟩

theorem l2norm_pair (x y : ℝ) : l2norm [x, y] = Real.sqrt (x ^ 2 + y ^ 2) := by
  unfold l2norm
  norm_num

/-- C7 witness: the vector `[3, 4]` (norm `5 ≥ eps`) and the orthogonal
vector `[4, -3]`. -/
theorem c7_sim_values_witness :
    simV [(3:ℝ), 4] [(3:ℝ), 4] = 1
    ∧ ((List.zipWith (· * ·) [(3:ℝ), 4] [(4:ℝ), -3]).sum = 0 →
        simV [(3:ℝ), 4] [(4:ℝ), -3] = 0)
    ∧ simV [(3:ℝ), 4] ([(3:ℝ), 4].map (fun x => -x)) = -1 := by
  have hn : l2norm [(3:ℝ), 4] = 5 := by
    rw [l2norm_pair]
    rw [show ((3:ℝ) ^ 2 + 4 ^ 2) = 5 ^ 2 by norm_num]
    exact Real.sqrt_sq (by norm_num)
  have ha : tEps ≤ l2norm [(3:ℝ), 4] := by
    rw [hn]; unfold tEps; norm_num
  exact c7_sim_values [3, 4] [4, -3] ha

/- ### Hybrid cross-entropy loss engine (loss.py lines 98-145) -/

/-- `torch.nn.functional.log_softmax(l, dim=-1)` on one row. -/
noncomputable def logSoftmaxV (l : List ℝ) : List ℝ :=
  l.map (fun x => x - Real.log (l.map Real.exp).sum)

/-- `torch.nn.functional.nll_loss` with its default `mean` reduction: the
negated batch mean of the target-class log-probabilities. -/
noncomputable def nllLossMean (logProbs : List (List ℝ)) (targets : List ℕ) : ℝ :=
  -listMean (List.zipWith (fun r t => r.getD t 0) logProbs targets)

/-- Binary cross-entropy with logits on one (logit, target) pair:
`-y*log(sigmoid x) - (1-y)*log(1 - sigmoid x) = (1-y)*x + log(1 + exp(-x))`. -/
noncomputable def bceLogit (x y : ℝ) : ℝ :=
  (1 - y) * x + Real.log (1 + Real.exp (-x))

/-- `binary_cross_entropy_with_logits` with its default `mean` reduction:
the mean over every element of the logits tensor. -/
noncomputable def bceWithLogitsMean (logits targets : List (List ℝ)) : ℝ :=
  listMean (List.flatten (List.zipWith (List.zipWith bceLogit) logits targets))

/-- `SingleLabelDotProductLoss._scale_loss` (loss.py lines 98-113) applied to
the 0-dimensional tensor that reaches it (see `lossCrossEntropy`):
with `p = exp(log_likelihood)` a scalar, `torch.max(p) = p`, so the factor is
`((1-p)/0.5)^4` when `p > 0.5` and `1` otherwise (`detach` has no
arithmetical content). -/
noncomputable def scaleLoss (logLikelihood : ℝ) : ℝ :=
  if 1 / 2 < Real.exp logLikelihood
  then ((1 - Real.exp logLikelihood) / (1 / 2)) ^ 4 else 1

/-- `SingleLabelDotProductLoss._loss_cross_entropy` (loss.py lines 114-145).
The logits are the stacked `[sim_pos, sim_neg]` columns; `nll_loss` and
`binary_cross_entropy_with_logits` are called with their default `mean`
reduction, so both terms are already batch scalars; the subsequent
`torch.mean(sigmoid_loss, dim=-1)` is the identity on a 0-dim tensor, the
`len(loss.shape) == 2` branch is not taken, and `loss *= _scale_loss(-loss)`
scales the 0-dim batch-mean loss. -/
noncomputable def lossCrossEntropy (simPos simNeg : List ℝ) : ℝ :=
  let logits := List.zipWith (fun a b => [a, b]) simPos simNeg
  let softMaxLoss := nllLossMean (logits.map logSoftmaxV) (logits.map (fun _ => 0))
  let sigmoidLoss := bceWithLogitsMean logits (logits.map (fun _ => [1, 0]))
  (softMaxLoss + sigmoidLoss) * scaleLoss (-(softMaxLoss + sigmoidLoss))

/-- Modelled from the spec (§4.3 steps 2-4): the raw loss of ONE example —
softmax negative log-likelihood of class 0 over the two logits, plus the
two-column mean of the independent sigmoid binary cross-entropies. -/
noncomputable def ceRaw (sp sn : ℝ) : ℝ :=
  (Real.log (Real.exp sp + Real.exp sn) - sp) + (bceLogit sp 1 + bceLogit sn 0) / 2

theorem mul_scaleLoss_congr (x y : ℝ) (h : x = y) :
    x * scaleLoss (-x) = y * scaleLoss (-y) := by rw [h]

/-- C4 (the code's actual behaviour): on a two-example batch the hybrid loss
averages the two examples' raw losses into a single batch scalar BEFORE
confidence scaling (both torch reductions default to `mean`), and applies the
scaling to that scalar — no per-example scaled quantity is ever formed and no
batch mean is taken after scaling. -/
theorem c4_mean_before_scaling (a1 a2 b1 b2 : ℝ) :
    lossCrossEntropy [a1, a2] [b1, b2]
      = ((ceRaw a1 b1 + ceRaw a2 b2) / 2)
        * scaleLoss (-((ceRaw a1 b1 + ceRaw a2 b2) / 2)) := by
  refine mul_scaleLoss_congr _ _ ?_
  simp [nllLossMean, logSoftmaxV, bceWithLogitsMean, listMean, ceRaw]
  ring

theorem ce_single (s t : ℝ) :
    lossCrossEntropy [s] [t] = ceRaw s t * scaleLoss (-(ceRaw s t)) := by
  refine mul_scaleLoss_congr _ _ ?_
  simp [nllLossMean, logSoftmaxV, bceWithLogitsMean, listMean, ceRaw]

theorem scaleLoss_eq_one {r : ℝ} (h : Real.log 2 ≤ r) : scaleLoss (-r) = 1 := by
  unfold scaleLoss
  have hp : Real.exp (-r) ≤ 1 / 2 := by
    have h1 : Real.exp (-r) ≤ Real.exp (-Real.log 2) :=
      Real.exp_le_exp.mpr (by linarith)
    have h2 : Real.exp (-Real.log 2) = 1 / 2 := by
      rw [Real.exp_neg, Real.exp_log (by norm_num : (0:ℝ) < 2)]
      norm_num
    rw [h2] at h1
    exact h1
  rw [if_neg (not_lt.mpr hp)]

/- ### Loss-layer forward (loss.py lines 147-173) -/

/-- The configuration surface of `SingleLabelDotProductLoss.__init__`
(loss.py lines 28-56): `mu_pos`, `mu_neg`, `use_max_sim_neg`, `neg_lambda`,
`same_sampling`.  `neg_lambda` and `same_sampling` are stored but never read
by `forward`. -/
structure SLDPLParams where
  muPos : ℝ
  muNeg : ℝ
  useMaxSimNeg : Bool
  negLambda : ℝ
  sameSampling : Bool

/-- The constructor defaults: `mu_pos=0.8`, `mu_neg=-0.2`,
`use_max_sim_neg=True`, `neg_lambda=0.5`, `same_sampling=False`. -/
noncomputable def sldpDefault : SLDPLParams := ⟨0.8, -0.2, true, 0.5, false⟩

/-- Row-wise similarity of two equally-shaped batches. -/
noncomputable def simRows (a b : List (List ℝ)) : List ℝ := List.zipWith simV a b

/-- `SingleLabelDotProductLoss.forward` (loss.py lines 147-173): computes the
positive and negative cosine similarities and returns the margin loss.  The
`_loss_cross_entropy` call (line 171) is commented out, and the constructor
accepts no selector for it. -/
noncomputable def sldpForward (c : SLDPLParams)
    (inputsEmbed labelsPos labelsNeg : List (List ℝ)) : ℝ :=
  marginLoss c.muPos c.muNeg c.useMaxSimNeg
    (simRows inputsEmbed labelsPos) (simRows inputsEmbed labelsNeg)

theorem marginLoss_single {α : Type} [LinearOrderedField α]
    (muPos muNeg : α) (b : Bool) (s t : α) :
    marginLoss muPos muNeg b [s] [t] = max 0 (muPos - s) + max 0 (muNeg + t) := by
  cases b <;> simp [marginLoss, listMax, listMean]

theorem tEps_le_one : tEps ≤ 1 := by unfold tEps; norm_num

theorem l2norm_e1 : l2norm [(1:ℝ), 0] = 1 := by
  rw [l2norm_pair]
  norm_num

theorem simV_e1_e1 : simV [(1:ℝ), 0] [(1:ℝ), 0] = 1 :=
  simV_self _ (by rw [l2norm_e1]; exact tEps_le_one)

theorem simV_e1_e2 : simV [(1:ℝ), 0] [(0:ℝ), 1] = 0 := by
  refine simV_orth _ _ ?_
  simp

/- Exact values of the per-example raw hybrid loss at similarity values 0, 1. -/

theorem log_one_add_exp_neg_one :
    Real.log (1 + Real.exp (-1)) = Real.log (1 + Real.exp 1) - 1 := by
  have hprod : (1 + Real.exp 1) * Real.exp (-1) = 1 + Real.exp (-1) := by
    rw [add_mul, one_mul, ← Real.exp_add]
    norm_num [Real.exp_zero, add_comm]
  have hne1 : (1:ℝ) + Real.exp 1 ≠ 0 := by positivity
  rw [← hprod, Real.log_mul hne1 (Real.exp_ne_zero _), Real.log_exp]
  ring

theorem bceLogit_11 : bceLogit 1 1 = Real.log (1 + Real.exp 1) - 1 := by
  unfold bceLogit
  rw [log_one_add_exp_neg_one]
  ring

theorem bceLogit_10 : bceLogit 1 0 = Real.log (1 + Real.exp 1) := by
  unfold bceLogit
  rw [log_one_add_exp_neg_one]
  ring

theorem bceLogit_00 : bceLogit 0 0 = Real.log 2 := by
  unfold bceLogit
  rw [neg_zero, Real.exp_zero]
  norm_num

theorem bceLogit_01 : bceLogit 0 1 = Real.log 2 := by
  unfold bceLogit
  rw [neg_zero, Real.exp_zero]
  norm_num

theorem logsum_00 : Real.log (Real.exp 0 + Real.exp 0) = Real.log 2 := by
  rw [Real.exp_zero]
  norm_num

theorem logsum_10 : Real.log (Real.exp 1 + Real.exp 0) = Real.log (1 + Real.exp 1) := by
  rw [Real.exp_zero, add_comm]

theorem logsum_01 : Real.log (Real.exp 0 + Real.exp 1) = Real.log (1 + Real.exp 1) := by
  rw [Real.exp_zero]

theorem logsum_11 : Real.log (Real.exp 1 + Real.exp 1) = Real.log 2 + 1 := by
  rw [show Real.exp 1 + Real.exp 1 = 2 * Real.exp 1 from (two_mul _).symm,
    Real.log_mul (by norm_num) (Real.exp_ne_zero 1), Real.log_exp]

theorem ceRaw_00 : ceRaw 0 0 = 2 * Real.log 2 := by
  unfold ceRaw
  rw [logsum_00, bceLogit_01, bceLogit_00]
  ring

theorem ceRaw_10 :
    ceRaw 1 0 = 3/2 * Real.log (1 + Real.exp 1) - 3/2 + Real.log 2 / 2 := by
  unfold ceRaw
  rw [logsum_10, bceLogit_11, bceLogit_00]
  ring

theorem ceRaw_01 :
    ceRaw 0 1 = 3/2 * Real.log (1 + Real.exp 1) + Real.log 2 / 2 := by
  unfold ceRaw
  rw [logsum_01, bceLogit_01, bceLogit_10]
  ring

theorem ceRaw_11 :
    ceRaw 1 1 = Real.log 2 + Real.log (1 + Real.exp 1) - 1/2 := by
  unfold ceRaw
  rw [logsum_11, bceLogit_11, bceLogit_10]
  ring

/- Numeric bounds used to show the confidence scaling stays inactive. -/

theorem log_two_le_B : Real.log 2 ≤ Real.log (1 + Real.exp 1) := by
  have hE : (1:ℝ) ≤ Real.exp 1 := by
    have := Real.exp_one_gt_d9
    linarith
  exact (Real.log_le_log_iff (by norm_num) (by positivity)).mpr (by linarith)

theorem three_add_log_two_le : 3 + Real.log 2 ≤ 3 * Real.log (1 + Real.exp 1) := by
  have hEgt := Real.exp_one_gt_d9
  have hElt := Real.exp_one_lt_d9
  have hEpos := Real.exp_pos 1
  have hcube : 2 * Real.exp 1 ^ 3 ≤ (1 + Real.exp 1) ^ 3 := by
    nlinarith [mul_lt_mul_of_pos_right hElt (mul_pos hEpos hEpos),
      sq_nonneg (Real.exp 1)]
  have hlog3 := (Real.log_le_log_iff (by positivity) (by positivity)).mpr hcube
  rw [Real.log_mul (by norm_num) (by positivity), Real.log_pow, Real.log_pow,
    Real.log_exp] at hlog3
  push_cast at hlog3
  linarith

/-- C5 counterexample: there is NO configuration of the loss layer under which
its `forward` computes the hybrid cross-entropy loss of the two similarity
vectors.  Instantiating such a hypothetical equality at four unit-vector
batches realizing the similarity pairs (0,0), (1,0), (0,1), (1,1) is
contradictory, whatever `mu_pos`/`mu_neg`/`use_max_sim_neg` are. -/
theorem c5_not_selectable_counter :
    ¬ ∃ c : SLDPLParams, ∀ ie pe ne : List (List ℝ),
        sldpForward c ie pe ne
          = lossCrossEntropy (simRows ie pe) (simRows ie ne) := by
  rintro ⟨c, h⟩
  have hL0 : (0:ℝ) ≤ Real.log 2 := Real.log_nonneg one_le_two
  have hBL := log_two_le_B
  have h3L := three_add_log_two_le
  have hLgt := Real.log_two_gt_d9
  have e00 := h [[1, 0]] [[0, 1]] [[0, 1]]
  have e10 := h [[1, 0]] [[1, 0]] [[0, 1]]
  have e01 := h [[1, 0]] [[0, 1]] [[1, 0]]
  have e11 := h [[1, 0]] [[1, 0]] [[1, 0]]
  simp only [sldpForward, simRows, List.zipWith_cons_cons, List.zipWith_nil_left,
    simV_e1_e1, simV_e1_e2] at e00 e10 e01 e11
  rw [marginLoss_single, ce_single, ceRaw_00,
    scaleLoss_eq_one (by linarith), mul_one] at e00
  rw [marginLoss_single, ce_single, ceRaw_10,
    scaleLoss_eq_one (by linarith), mul_one] at e10
  rw [marginLoss_single, ce_single, ceRaw_01,
    scaleLoss_eq_one (by linarith), mul_one] at e01
  rw [marginLoss_single, ce_single, ceRaw_11,
    scaleLoss_eq_one (by linarith), mul_one] at e11
  -- the margin loss is separable in (sim_pos, sim_neg), so the four
  -- equations force 2 * log(1 + e) = 2 * log 2 + 1
  have hB : 2 * Real.log (1 + Real.exp 1) = 2 * Real.log 2 + 1 := by linarith
  have hlog : Real.log ((1 + Real.exp 1) ^ 2) = Real.log (4 * Real.exp 1) := by
    rw [Real.log_pow, Real.log_mul (by norm_num) (Real.exp_ne_zero 1), Real.log_exp,
      show (4:ℝ) = 2 ^ 2 by norm_num, Real.log_pow]
    push_cast
    linarith
  have hsq : ((1:ℝ) + Real.exp 1) ^ 2 = 4 * Real.exp 1 := by
    have h1 : (0:ℝ) < (1 + Real.exp 1) ^ 2 := by positivity
    have h2 : (0:ℝ) < 4 * Real.exp 1 := by positivity
    calc ((1:ℝ) + Real.exp 1) ^ 2
        = Real.exp (Real.log ((1 + Real.exp 1) ^ 2)) := (Real.exp_log h1).symm
      _ = Real.exp (Real.log (4 * Real.exp 1)) := by rw [hlog]
      _ = 4 * Real.exp 1 := Real.exp_log h2
  have hEgt := Real.exp_one_gt_d9
  nlinarith [hsq, hEgt, Real.exp_pos 1]

/-- C5 (amended): the loss layer's `forward` computes the margin loss for
every configuration — the hybrid engine, though implemented with the same
input/output interface, is reachable by no configuration; at the unit-vector
batch below the two engines genuinely disagree, so `forward` returns the
margin loss and not the hybrid loss. -/
theorem c5_forward_is_margin :
    (∀ (c : SLDPLParams) (ie pe ne : List (List ℝ)),
      sldpForward c ie pe ne
        = marginLoss c.muPos c.muNeg c.useMaxSimNeg (simRows ie pe) (simRows ie ne))
    ∧ sldpForward sldpDefault [[1, 0]] [[1, 0]] [[0, 1]]
        ≠ lossCrossEntropy (simRows [[1, 0]] [[1, 0]]) (simRows [[1, 0]] [[0, 1]]) := by
  constructor
  · intro c ie pe ne
    rfl
  · have hL0 : (0:ℝ) ≤ Real.log 2 := Real.log_nonneg one_le_two
    have h3L := three_add_log_two_le
    have hLgt := Real.log_two_gt_d9
    have h1 : sldpForward sldpDefault [[1, 0]] [[1, 0]] [[0, 1]] = 0 := by
      simp only [sldpForward, simRows, List.zipWith_cons_cons, List.zipWith_nil_left,
        simV_e1_e1, simV_e1_e2, sldpDefault]
      rw [marginLoss_single]
      norm_num [max_def]
    have h2 : lossCrossEntropy (simRows [[1, 0]] [[1, 0]]) (simRows [[1, 0]] [[0, 1]])
        = 3/2 * Real.log (1 + Real.exp 1) - 3/2 + Real.log 2 / 2 := by
      simp only [simRows, List.zipWith_cons_cons, List.zipWith_nil_left,
        simV_e1_e1, simV_e1_e2]
      rw [ce_single, ceRaw_10, scaleLoss_eq_one (by linarith), mul_one]
    rw [h1, h2]
    have hpos : (0:ℝ) < 3/2 * Real.log (1 + Real.exp 1) - 3/2 + Real.log 2 / 2 := by
      linarith
    exact fun hc => absurd hc.symm (ne_of_gt hpos)

/- ### DIET classifier (classifier.py)

The pretrained encoder (`self.bert`) and the CRF scorer (`self.crf`) are
external collaborators: the encoder's output is an input of the model and the
CRF is a pair of opaque functions (log-likelihood, Viterbi decode) carried in
the parameter record.  Randomness is injected: the Bernoulli draws of the two
`self.dropout` calls and the `random.choice` source of the negative sampler
are explicit arguments. -/

/-- A linear layer `y = W x + b` (torch `nn.Linear`). -/
structure Linear where
  weight : List (List ℝ)
  bias : List ℝ

noncomputable def dotL (a b : List ℝ) : ℝ := (List.zipWith (· * ·) a b).sum

noncomputable def linApply (f : Linear) (v : List ℝ) : List ℝ :=
  List.zipWith (fun r c => dotL r v + c) f.weight f.bias

/-- `nn.Dropout(p)` on a (batch, rows, hidden) tensor with the Bernoulli
draws made explicit: in training mode a kept entry is scaled by `1/(1-p)` and
a dropped entry becomes `0`; in evaluation mode the input passes unchanged. -/
noncomputable def applyDropout (training : Bool) (p : ℝ)
    (mask : List (List (List Bool))) (x : List (List (List ℝ))) :
    List (List (List ℝ)) :=
  if training then
    List.zipWith (fun mrow xrow =>
      List.zipWith (fun mv xv =>
        List.zipWith (fun keep v => if keep then v / (1 - p) else 0) mv xv)
        mrow xrow)
      mask x
  else x

/-- Output of the external encoder (`self.bert(...)`): `outputs[0]` is the
last hidden state; `outputs[2:]`, `hidden_states` and `attentions` are only
carried through into the head's own output. -/
structure BertOutput where
  last : List (List (List ℝ))
  rest : List (List (List (List ℝ)))
  hiddenStates : Option (List (List (List ℝ)))
  attentions : Option (List (List (List ℝ)))

/-- Learned parameters and configuration of `DIETClassifier` (lines 29-92),
plus its external CRF collaborator. -/
structure DIETParams where
  hiddenDropoutProb : ℝ
  embeddingDimension : ℕ
  useDotProduct : Bool
  numEntities : ℕ
  numIntents : ℕ
  useReturnDict : Bool
  entitiesDenseEmbed : Linear
  intentsOutputEmbed : Linear
  intentsLabelEmbed : List (List ℝ)
  intentsLabelDense : Linear
  intentsClassifier : Linear
  crfLogLik : List (List (List ℝ)) → List (List ℕ) → List (List Bool) → ℝ
  crfViterbi : List (List (List ℝ)) → List (List ℕ × ℝ)

/-- Effectful map over a list in the `Option` monad (a Python loop whose body
may raise): the elementwise results in order, `none` on the first failure. -/
def mapMO {α β : Type} (f : α → Option β) : List α → Option (List β)
  | [] => some []
  | a :: t => do
      let b ← f a
      let r ← mapMO f t
      pure (b :: r)

/-- `DIETClassifier.embed_all_intent` (lines 94-104): look up every id
`0..num_intents-1` in the embedding table and project it; an out-of-range
lookup is a fatal error (`none`). -/
noncomputable def embedAllIntent (p : DIETParams) : Option (List (List ℝ)) := do
  let rows ← mapMO (fun i => p.intentsLabelEmbed.get? i) (List.range p.numIntents)
  pure (rows.map (linApply p.intentsLabelDense))

/-- `DIETClassifier.logit_intent` (lines 105-117): for each example's (1, E)
embedding, the cosine similarity against every row of the all-intent matrix
(the `sim` broadcast of a (1, E) tensor against an (N, E) tensor). -/
noncomputable def logitIntent (embedOutIntents : List (List (List ℝ)))
    (allIntent : List (List ℝ)) : List (List ℝ) :=
  embedOutIntents.map (fun m => allIntent.map (fun b => simV (m.headD []) b))

/-- `random.choice` with the random draw injected as `pick`: raises (`none`)
on an empty candidate list, else returns the chosen element. -/
def pyChoice (pick : List ℕ → ℕ) (l : List ℕ) : Option ℕ :=
  if l.isEmpty then none else some (pick l)

/-- The index `DIETClassifier._neg_sample` chooses for each example: a random
element of `{0, ..., num_intent-1}` with the example's own label filtered
out. -/
def negSampleIdx (pick : List ℕ → ℕ) (numIntent : ℕ) (intentLabels : List ℕ) :
    Option (List ℕ) :=
  mapMO (fun s => pyChoice pick ((List.range numIntent).filter (fun l => l != s)))
    intentLabels

/-- `DIETClassifier._neg_sample` (lines 119-132): the rows of the all-intent
embedding matrix at the chosen indices. -/
noncomputable def negSample (pick : List ℕ → ℕ) (numIntent : ℕ)
    (intentLabels : List ℕ) (allIntent : List (List ℝ)) :
    Option (List (List ℝ)) := do
  let idxs ← negSampleIdx pick numIntent intentLabels
  mapMO (fun i => allIntent.get? i) idxs

/-- `torch.nn.MSELoss` (default `mean` reduction), with the integer targets
cast to float as `intent_labels.view(-1)` is. -/
noncomputable def mseLoss (preds : List ℝ) (targets : List ℕ) : ℝ :=
  listMean (List.zipWith (fun x t => (x - (t : ℝ)) ^ 2) preds targets)

/-- `torch.nn.CrossEntropyLoss` (log-softmax followed by mean NLL). -/
noncomputable def ceLoss (rows : List (List ℝ)) (targets : List ℕ) : ℝ :=
  nllLossMean (rows.map logSoftmaxV) targets

/-- The intent decision surface: a (batch, num_intents) similarity matrix in
the embedding-similarity strategy, a (batch, 1, num_intents) tensor from the
plain linear classifier otherwise. -/
inductive IntentLogits where
  | sims (m : List (List ℝ))
  | cls (t : List (List (List ℝ)))

/-- The values `DIETClassifier.forward` computes before output packaging
(lines 176-228). -/
structure ForwardCore where
  entitiesLoss : Option ℝ
  intentLoss : Option ℝ
  loss : Option ℝ
  entitiesLogits : List (List ℕ)
  intentLogits : IntentLogits

/-- Lines 225-228: the joint loss exists iff BOTH label sets were passed and
is then `entities_loss * 0.5 + intent_loss * 0.5`.  (When a label set is
present the per-task loss is always available; the inner binds model the
`TypeError` Python would raise otherwise — an unreachable case.) -/
noncomputable def mkJointLoss (entitiesLabels : Option (List (List ℕ)))
    (intentLabels : Option (List ℕ)) (el il : Option ℝ) : Option (Option ℝ) :=
  match entitiesLabels, intentLabels with
  | some _, some _ => do
      let e ← el
      let i ← il
      pure (some (e * 0.5 + i * 0.5))
  | _, _ => pure none

noncomputable def mkCore (entitiesLabels : Option (List (List ℕ)))
    (intentLabels : Option (List ℕ)) (el il : Option ℝ)
    (elog : List (List ℕ)) (ilog : IntentLogits) : Option ForwardCore := do
  let loss ← mkJointLoss entitiesLabels intentLabels el il
  pure ⟨el, il, loss, elog, ilog⟩

/-- `DIETClassifier.forward` (lines 134-228) up to output packaging:
`out` is the (external) encoder output, `maskSeq`/`maskPooled` are the
Bernoulli draws of the two `self.dropout` calls, `pick` is the random source
of the negative sampler.  `none` models a raised Python exception. -/
noncomputable def forwardCore (p : DIETParams) (training : Bool) (out : BertOutput)
    (attentionMask : List (List Bool)) (intentLabels : Option (List ℕ))
    (entitiesLabels : Option (List (List ℕ)))
    (maskSeq maskPooled : List (List (List Bool))) (pick : List ℕ → ℕ) :
    Option ForwardCore :=
  let sequenceOutput := applyDropout training p.hiddenDropoutProb maskSeq
    (out.last.map (fun m => m.drop 1))
  let pooledOutput := applyDropout training p.hiddenDropoutProb maskPooled
    (out.last.map (fun m => m.take 1))
  let entitiesEmbed := sequenceOutput.map (fun m => m.map (linApply p.entitiesDenseEmbed))
  let entitiesLoss : Option ℝ :=
    match entitiesLabels with
    | some labs => some (-(p.crfLogLik entitiesEmbed labs attentionMask))
    | none => none
  let entitiesLogits := (p.crfViterbi entitiesEmbed).map Prod.fst
  if p.useDotProduct then do
    let intentOutputEmbed := pooledOutput.map (fun m => m.map (linApply p.intentsOutputEmbed))
    let allIntent ← embedAllIntent p
    let intentLogits := logitIntent intentOutputEmbed allIntent
    match intentLabels with
    | some labs => do
        let embLabs ← mapMO (fun i => p.intentsLabelEmbed.get? i) labs
        let intentLabelsEmbed := embLabs.map (linApply p.intentsLabelDense)
        let embedNegLabel ← negSample pick p.numIntents labs allIntent
        let il := sldpForward sldpDefault intentOutputEmbed.flatten
          intentLabelsEmbed embedNegLabel
        mkCore entitiesLabels intentLabels entitiesLoss (some il)
          entitiesLogits (.sims intentLogits)
    | none =>
        mkCore entitiesLabels intentLabels entitiesLoss none
          entitiesLogits (.sims intentLogits)
  else
    let intentLogits := pooledOutput.map (fun m => m.map (linApply p.intentsClassifier))
    match intentLabels with
    | some labs =>
        let il := if p.numIntents = 1
          then mseLoss intentLogits.flatten.flatten labs
          else ceLoss intentLogits.flatten labs
        mkCore entitiesLabels intentLabels entitiesLoss (some il)
          entitiesLogits (.cls intentLogits)
    | none =>
        mkCore entitiesLabels intentLabels entitiesLoss none
          entitiesLogits (.cls intentLogits)

/-- The two output shapes of `DIETClassifier.forward` (lines 230-244): the
dictionary, or the tuple `(loss,) + output` / `output` where
`output = (loss,) + outputs[2:]`. -/
inductive DIETOutput where
  | dict (entitiesLoss intentLoss loss : Option ℝ) (entitiesLogits : List (List ℕ))
      (intentLogits : IntentLogits) (hiddenStates : Option (List (List (List ℝ))))
      (attentions : Option (List (List (List ℝ))))
  | tuple (losses : List (Option ℝ)) (rest : List (List (List (List ℝ))))

def DIETOutput.isDict : DIETOutput → Bool
  | .dict _ _ _ _ _ _ _ => true
  | .tuple _ _ => false

/-- Lines 230-244: in training mode `return_dict` is forced to `True`; the
tuple is `(loss, loss) + outputs[2:]` when both per-task losses exist and
`(loss,) + outputs[2:]` otherwise. -/
def packageOutput (returnDict training : Bool) (out : BertOutput)
    (c : ForwardCore) : DIETOutput :=
  let rd := if training then true else returnDict
  if rd then
    .dict c.entitiesLoss c.intentLoss c.loss c.entitiesLogits c.intentLogits
      out.hiddenStates out.attentions
  else
    .tuple (if c.entitiesLoss.isSome && c.intentLoss.isSome
            then [c.loss, c.loss] else [c.loss]) out.rest

/-- `DIETClassifier.forward`, complete: line 164 resolves the effective
`return_dict` from the argument or `config.use_return_dict`, then the core is
computed and packaged. -/
noncomputable def DIETforward (p : DIETParams) (training : Bool)
    (returnDict : Option Bool) (out : BertOutput)
    (attentionMask : List (List Bool)) (intentLabels : Option (List ℕ))
    (entitiesLabels : Option (List (List ℕ)))
    (maskSeq maskPooled : List (List (List Bool))) (pick : List ℕ → ℕ) :
    Option DIETOutput :=
  (forwardCore p training out attentionMask intentLabels entitiesLabels
    maskSeq maskPooled pick).map
    (packageOutput (returnDict.getD p.useReturnDict) training out)

/- ### Claims about the negative sampler -/

theorem pyChoice_spec (pick : List ℕ → ℕ)
    (hpick : ∀ l, l ≠ [] → pick l ∈ l) (l : List ℕ) (b : ℕ)
    (h : pyChoice pick l = some b) : b ∈ l := by
  unfold pyChoice at h
  by_cases he : l.isEmpty
  · rw [if_pos he] at h
    cases h
  · rw [if_neg he] at h
    have hb : b = pick l := (Option.some.injEq _ _).mp h.symm
    rw [hb]
    exact hpick l (by simpa [List.isEmpty_iff] using he)

/-- C3: for every example, whenever the injected random source genuinely
picks an element of the candidate list it is given, the index chosen by the
negative sampler is a valid intent id in `{0,...,num_intents-1}` and is never
equal to the example's own gold label — for every possible random draw. -/
theorem c3_neg_sample_ne_gold (pick : List ℕ → ℕ)
    (hpick : ∀ l, l ≠ [] → pick l ∈ l) (numIntent : ℕ)
    (intentLabels idxs : List ℕ)
    (h : negSampleIdx pick numIntent intentLabels = some idxs)
    (i : ℕ) (hi : i < idxs.length) :
    idxs.getD i 0 < numIntent ∧ idxs.getD i 0 ≠ intentLabels.getD i 0 := by
  induction intentLabels generalizing idxs i with
  | nil =>
      unfold negSampleIdx mapMO at h
      cases h
      simp at hi
  | cons s t ih =>
      unfold negSampleIdx mapMO at h
      cases hc : pyChoice pick ((List.range numIntent).filter (fun l => l != s)) with
      | none => rw [hc] at h; cases h
      | some b =>
          rw [hc] at h
          cases hr : mapMO (fun s =>
              pyChoice pick ((List.range numIntent).filter (fun l => l != s))) t with
          | none => rw [hr] at h; cases h
          | some r =>
              rw [hr] at h
              have hidxs : idxs = b :: r := (Option.some.inj h).symm
              subst hidxs
              cases i with
              | zero =>
                  have hb := pyChoice_spec pick hpick _ b hc
                  rw [List.mem_filter] at hb
                  refine ⟨?_, ?_⟩
                  · simpa [List.mem_range] using hb.1
                  · simpa using hb.2
              | succ j =>
                  have hj : j < r.length := by simpa using hi
                  simpa using ih r (by simpa [negSampleIdx] using hr) j hj

/-- C3 witness: vocabulary `{0,1,2}`, gold labels `[1, 0]`, random source =
head of the candidate list; the sampler chooses `[0, 1]`, and at example 0
the chosen index `0` is in range and differs from the gold label `1`. -/
theorem c3_neg_sample_ne_gold_witness :
    [0, 1].getD 0 0 < 3 ∧ [0, 1].getD 0 0 ≠ [1, 0].getD 0 0 := by
  have hpick : ∀ l : List ℕ, l ≠ [] → l.headD 0 ∈ l := by
    intro l hl
    cases l with
    | nil => exact absurd rfl hl
    | cons a t => exact List.mem_cons_self a t
  exact c3_neg_sample_ne_gold (fun l => l.headD 0) hpick 3 [1, 0] [0, 1] rfl 0
    (by norm_num)

/- ### Claims about the joint classification head -/

theorem negSample_none_of_single (pick : List ℕ → ℕ) (t : List ℕ)
    (A : List (List ℝ)) : negSample pick 1 (0 :: t) A = none := rfl

/-- C9: with exactly one intent in the vocabulary, the embedding-similarity
strategy configured, and gold intent labels supplied, `forward` fails in
negative sampling: the candidate set `{0,...,num_intents-1}` minus the gold
label is empty, so `random.choice` raises — a vocabulary of size one is
fatal in training, not only an empty vocabulary. -/
theorem c9_single_intent_fatal (p : DIETParams) (training : Bool)
    (out : BertOutput) (am : List (List Bool)) (labs : List ℕ)
    (entitiesLabels : Option (List (List ℕ)))
    (m1 m2 : List (List (List Bool))) (pick : List ℕ → ℕ)
    (h1 : p.numIntents = 1) (h2 : p.useDotProduct = true)
    (h3 : labs ≠ []) (h4 : ∀ l ∈ labs, l < 1) :
    forwardCore p training out am (some labs) entitiesLabels m1 m2 pick = none := by
  cases labs with
  | nil => exact absurd rfl h3
  | cons l0 t =>
      have hl0 : l0 = 0 := Nat.lt_one_iff.mp (h4 l0 (List.mem_cons_self _ _))
      subst hl0
      unfold forwardCore
      rw [h2]
      simp only [if_true]
      cases hA : embedAllIntent p with
      | none => simp [hA]
      | some A =>
          cases hE : mapMO (fun i => p.intentsLabelEmbed.get? i) (0 :: t) with
          | none => simp [hA, hE]
          | some E => simp [hA, hE, h1, negSample_none_of_single]

/-- A concrete parameter record exercising the plain-classifier strategy
(`use_dot_product = False`, one intent, hidden size 1, dropout 1/2). -/
noncomputable def witParams : DIETParams :=
  ⟨1/2, 1, false, 1, 1, true,
   ⟨[[1]], [0]⟩, ⟨[[1]], [0]⟩, [[0], [0], [0]], ⟨[[1]], [0]⟩, ⟨[[1]], [0]⟩,
   fun _ _ _ => 0, fun _ => [([0], 0)]⟩

/-- The same record with the embedding-similarity strategy selected. -/
noncomputable def witParams9 : DIETParams :=
  ⟨1/2, 1, true, 1, 1, true,
   ⟨[[1]], [0]⟩, ⟨[[1]], [0]⟩, [[0], [0], [0]], ⟨[[1]], [0]⟩, ⟨[[1]], [0]⟩,
   fun _ _ _ => 0, fun _ => [([0], 0)]⟩

/-- A concrete encoder output: one example, two tokens, hidden size 1. -/
noncomputable def witBert : BertOutput := ⟨[[[2], [2]]], [], none, none⟩

/-- C9 witness: one intent, embedding-similarity strategy, gold label `[0]`:
the forward pass fails. -/
theorem c9_single_intent_fatal_witness :
    forwardCore witParams9 false witBert [[true, true]] (some [0]) none [] []
      (fun l => l.headD 0) = none :=
  c9_single_intent_fatal witParams9 false witBert [[true, true]] [0] none [] []
    (fun l => l.headD 0) rfl rfl (by simp) (by simp)

theorem mkCore_fields (entitiesLabels : Option (List (List ℕ)))
    (intentLabels : Option (List ℕ)) (el il : Option ℝ)
    (elog : List (List ℕ)) (ilog : IntentLogits) (c : ForwardCore)
    (h : mkCore entitiesLabels intentLabels el il elog ilog = some c) :
    (entitiesLabels.isSome = true → intentLabels.isSome = true →
      ∃ e i, c.entitiesLoss = some e ∧ c.intentLoss = some i
        ∧ c.loss = some (e * 0.5 + i * 0.5))
    ∧ ((entitiesLabels.isSome = false ∨ intentLabels.isSome = false) →
        c.loss = none) := by
  cases entitiesLabels with
  | none =>
      cases intentLabels with
      | none =>
          have hc : c = ⟨el, il, none, elog, ilog⟩ := (Option.some.inj h).symm
          subst hc
          exact ⟨fun hf => by simp at hf, fun _ => rfl⟩
      | some ls =>
          have hc : c = ⟨el, il, none, elog, ilog⟩ := (Option.some.inj h).symm
          subst hc
          exact ⟨fun hf => by simp at hf, fun _ => rfl⟩
  | some es =>
      cases intentLabels with
      | none =>
          have hc : c = ⟨el, il, none, elog, ilog⟩ := (Option.some.inj h).symm
          subst hc
          exact ⟨fun _ hf => by simp at hf, fun _ => rfl⟩
      | some ls =>
          cases el with
          | none => cases h
          | some e =>
              cases il with
              | none => cases h
              | some i =>
                  have hc : c = ⟨some e, some i, some (e * 0.5 + i * 0.5), elog, ilog⟩ :=
                    (Option.some.inj h).symm
                  subst hc
                  refine ⟨fun _ _ => ⟨e, i, rfl, rfl, rfl⟩, fun hor => ?_⟩
                  rcases hor with hf | hf <;> simp at hf

/-- Every successful run of the forward core produced its result through the
joint-loss combination step of lines 225-228. -/
theorem forwardCore_via_mkCore (p : DIETParams) (training : Bool)
    (out : BertOutput) (am : List (List Bool)) (intentLabels : Option (List ℕ))
    (entitiesLabels : Option (List (List ℕ)))
    (m1 m2 : List (List (List Bool))) (pick : List ℕ → ℕ) (c : ForwardCore)
    (h : forwardCore p training out am intentLabels entitiesLabels m1 m2 pick = some c) :
    ∃ el il elog ilog, mkCore entitiesLabels intentLabels el il elog ilog = some c := by
  unfold forwardCore at h
  by_cases hd : p.useDotProduct = true
  · rw [hd] at h
    simp only [if_true] at h
    cases hA : embedAllIntent p with
    | none => rw [hA] at h; simp at h
    | some A =>
        rw [hA] at h
        simp only [Option.bind_eq_bind', Option.some_bind] at h
        cases intentLabels with
        | none => exact ⟨_, _, _, _, h⟩
        | some labs =>
            simp only [] at h
            cases hE : mapMO (fun i => p.intentsLabelEmbed.get? i) labs with
            | none => rw [hE] at h; simp at h
            | some E =>
                rw [hE] at h
                simp only [Option.bind_eq_bind', Option.some_bind] at h
                cases hN : negSample pick p.numIntents labs A with
                | none => rw [hN] at h; simp at h
                | some NG =>
                    rw [hN] at h
                    simp only [Option.bind_eq_bind', Option.some_bind] at h
                    exact ⟨_, _, _, _, h⟩
  · rw [Bool.not_eq_true] at hd
    rw [hd] at h
    simp only [Bool.false_eq_true, if_false] at h
    cases intentLabels with
    | none => exact ⟨_, _, _, _, h⟩
    | some labs => exact ⟨_, _, _, _, h⟩

/-- C2: whenever both gold label sets are supplied and the forward pass
succeeds, the joint loss equals exactly `0.5 * entity_loss +
0.5 * intent_loss`; whenever either label set is omitted, no joint loss is
produced (the `loss` field is `none`). -/
theorem c2_joint_loss (p : DIETParams) (training : Bool) (out : BertOutput)
    (am : List (List Bool)) (intentLabels : Option (List ℕ))
    (entitiesLabels : Option (List (List ℕ)))
    (m1 m2 : List (List (List Bool))) (pick : List ℕ → ℕ) (c : ForwardCore)
    (h : forwardCore p training out am intentLabels entitiesLabels m1 m2 pick = some c) :
    (entitiesLabels.isSome = true → intentLabels.isSome = true →
      ∃ e i, c.entitiesLoss = some e ∧ c.intentLoss = some i
        ∧ c.loss = some (e * 0.5 + i * 0.5))
    ∧ ((entitiesLabels.isSome = false ∨ intentLabels.isSome = false) →
        c.loss = none) := by
  obtain ⟨el, il, elog, ilog, hmk⟩ :=
    forwardCore_via_mkCore p training out am intentLabels entitiesLabels m1 m2 pick c h
  obtain ⟨h1, h2⟩ := mkCore_fields entitiesLabels intentLabels el il elog ilog c hmk
  exact ⟨h1, h2⟩

/-- C2 witness: classifier strategy, one intent, both label sets supplied;
the forward pass succeeds and its joint loss is the half-half combination. -/
theorem c2_joint_loss_witness :
    ∃ (c : ForwardCore) (e i : ℝ),
      forwardCore witParams false witBert [[true, true]] (some [0]) (some [[0]])
        [] [] (fun l => l.headD 0) = some c
      ∧ c.entitiesLoss = some e ∧ c.intentLoss = some i
      ∧ c.loss = some (e * 0.5 + i * 0.5) := by
  have hs : (forwardCore witParams false witBert [[true, true]] (some [0])
      (some [[0]]) [] [] (fun l => l.headD 0)).isSome = true := rfl
  obtain ⟨e, i, h1, h2, h3⟩ :=
    (c2_joint_loss witParams false witBert [[true, true]] (some [0]) (some [[0]])
      [] [] (fun l => l.headD 0) _ (Option.some_get hs).symm).1 rfl rfl
  exact ⟨_, e, i, (Option.some_get hs).symm, h1, h2, h3⟩

/-- C10: a successful `forward` in training mode returns the
dictionary-shaped output regardless of the caller's `return_dict`; the
tuple-shaped output is reachable only in evaluation mode with an effective
`return_dict` of false. -/
theorem c10_dict_when_training (p : DIETParams) (training : Bool)
    (rd : Option Bool) (out : BertOutput) (am : List (List Bool))
    (intentLabels : Option (List ℕ)) (entitiesLabels : Option (List (List ℕ)))
    (m1 m2 : List (List (List Bool))) (pick : List ℕ → ℕ) (o : DIETOutput)
    (h : DIETforward p training rd out am intentLabels entitiesLabels m1 m2 pick
      = some o) :
    (training = true → o.isDict = true)
    ∧ (o.isDict = false → training = false ∧ rd.getD p.useReturnDict = false) := by
  unfold DIETforward at h
  cases hc : forwardCore p training out am intentLabels entitiesLabels m1 m2 pick with
  | none => rw [hc] at h; simp at h
  | some c =>
      rw [hc] at h
      simp only [Option.map_some'] at h
      have ho : o = packageOutput (rd.getD p.useReturnDict) training out c :=
        (Option.some.inj h).symm
      subst ho
      unfold packageOutput
      cases training with
      | true => exact ⟨fun _ => rfl, fun hf => by simp [DIETOutput.isDict] at hf⟩
      | false =>
          cases hrd : rd.getD p.useReturnDict with
          | true =>
              exact ⟨fun hf => by simp at hf,
                fun hf => by simp [DIETOutput.isDict] at hf⟩
          | false =>
              refine ⟨fun hf => by simp at hf, fun _ => ⟨rfl, rfl⟩⟩

/-- C10 witness: training mode with `return_dict` unspecified; the output is
the dictionary. -/
theorem c10_dict_when_training_witness :
    ∃ o, DIETforward witParams true none witBert [[true, true]] (some [0])
        (some [[0]]) [[[true]]] [[[true]]] (fun l => l.headD 0) = some o
      ∧ o.isDict = true := by
  have hs : (DIETforward witParams true none witBert [[true, true]] (some [0])
      (some [[0]]) [[[true]]] [[[true]]] (fun l => l.headD 0)).isSome = true := rfl
  refine ⟨_, (Option.some_get hs).symm, ?_⟩
  exact (c10_dict_when_training witParams true none witBert [[true, true]]
    (some [0]) (some [[0]]) [[[true]]] [[[true]]] (fun l => l.headD 0) _
    (Option.some_get hs).symm).1 rfl

/-- C8 (amended): the head is deterministic given its inputs, parameters and
negative-sampling draws ONLY once the dropout draws are also fixed; in
evaluation mode dropout is inert, so there any two dropout draws give
identical outputs.  (In training mode the counterexample shows dropout is a
second randomness source beyond the negative sampler.) -/
theorem c8_eval_deterministic (p : DIETParams) (rd : Option Bool)
    (out : BertOutput) (am : List (List Bool)) (intentLabels : Option (List ℕ))
    (entitiesLabels : Option (List (List ℕ)))
    (m1 m2 m3 m4 : List (List (List Bool))) (pick : List ℕ → ℕ) :
    DIETforward p false rd out am intentLabels entitiesLabels m1 m2 pick
      = DIETforward p false rd out am intentLabels entitiesLabels m3 m4 pick := by
  unfold DIETforward forwardCore applyDropout
  simp

/-- C8 counterexample: in training mode, two calls with identical inputs,
identical parameters and the same negative-sampling source, but different
dropout draws on the pooled token, return different outputs — dropout is a
second source of randomness, so determinism modulo only the negative
sampler's randomness is false. -/
theorem c8_dropout_counter :
    DIETforward witParams true none witBert [[true, true]] (some [0]) none
        [[[true]]] [[[true]]] (fun l => l.headD 0)
      ≠ DIETforward witParams true none witBert [[true, true]] (some [0]) none
        [[[true]]] [[[false]]] (fun l => l.headD 0) := by
  intro hEq
  norm_num [DIETforward, forwardCore, applyDropout, packageOutput, mkCore,
    mkJointLoss, mseLoss, listMean, linApply, dotL, witParams, witBert] at hEq

end DIET
